import Mathlib

/-!
Shallow embedding of the core numerical routines of qwfilter
(src/qwfilter/kalman.py) and proofs about the specification claims.

Floating-point numpy arrays are modelled in exact arithmetic: one- and
two-dimensional arrays become functions from natural-number indices into a
linear ordered field (or Mathlib matrices over `Fin n` where matrix algebra
is needed), and each operation is translated line by line from the source.
Calls into external libraries (scipy and the numpy linear-algebra kernels)
are modelled by their documented contracts.
-/

namespace QWFilter

open scoped Matrix

section UTCore

variable {α : Type} [LinearOrderedField α]

/-- Number of sigma points, from `UnscentedTransformBase.__init__`
(kalman.py line 228): `nsigma = 2 * nin + (kappa != 0)`. -/
def utNsigma (nin : ℕ) (κ : α) : ℕ := 2 * nin + (if κ ≠ 0 then 1 else 0)

/-- Transform weights, from `UnscentedTransformBase.__init__` (kalman.py lines
231-234): every entry is `0.5 / (nin + kappa)`; when kappa is nonzero the last
entry, the one at index `2 * nin`, is overwritten with `kappa / (nin + kappa)`. -/
def utWeight (nin : ℕ) (κ : α) (k : ℕ) : α :=
  if κ ≠ 0 ∧ k = 2 * nin then κ / ((nin : α) + κ) else 1 / (2 * ((nin : α) + κ))

/-- Sigma-point deviations, from `UnscentedTransformBase.gen_sigma_points`
(kalman.py lines 259-261): rows `0..nin-1` are the rows of the square root `S`,
rows `nin..2*nin-1` their negations, and the optional center row stays zero.
`S` stands for the value returned by the square-root method applied to
`(nin + kappa) * Pin`. -/
def xinDev (nin : ℕ) (S : ℕ → ℕ → α) (k i : ℕ) : α :=
  if k < nin then S k i else if k < 2 * nin then -S (k - nin) i else 0

/-- Sigma points: `xin_sigma = xin_dev + xin` (kalman.py line 262). -/
def xinSigma (nin : ℕ) (S : ℕ → ℕ → α) (xin : ℕ → α) (k i : ℕ) : α :=
  xinDev nin S k i + xin i

/-- Output mean of the unscented transform (kalman.py line 273):
`xout = einsum('k,ki', weights, xout_sigma)` with `xout_sigma = f(xin_sigma)`
applied row by row (line 272). -/
def utXout (nin : ℕ) (κ : α) (S : ℕ → ℕ → α) (xin : ℕ → α)
    (f : (ℕ → α) → ℕ → α) (j : ℕ) : α :=
  ∑ k ∈ Finset.range (utNsigma nin κ),
    utWeight nin κ k * f (fun i => xinSigma nin S xin k i) j

/-- Output deviations (kalman.py line 274): `xout_dev = xout_sigma - xout`. -/
def utXoutDev (nin : ℕ) (κ : α) (S : ℕ → ℕ → α) (xin : ℕ → α)
    (f : (ℕ → α) → ℕ → α) (k j : ℕ) : α :=
  f (fun i => xinSigma nin S xin k i) j - utXout nin κ S xin f j

/-- Output covariance (kalman.py line 275):
`Pout = einsum('ki,kj,k', xout_dev, xout_dev, weights)`. -/
def utPout (nin : ℕ) (κ : α) (S : ℕ → ℕ → α) (xin : ℕ → α)
    (f : (ℕ → α) → ℕ → α) (i j : ℕ) : α :=
  ∑ k ∈ Finset.range (utNsigma nin κ),
    utXoutDev nin κ S xin f k i * utXoutDev nin κ S xin f k j * utWeight nin κ k

/-- Input-output cross covariance, from `UnscentedTransformBase.crosscov`
(kalman.py lines 283-287):
`einsum('ki,kj,k', xin_dev, xout_dev, weights)`. -/
def utCrosscov (nin : ℕ) (κ : α) (S : ℕ → ℕ → α) (xin : ℕ → α)
    (f : (ℕ → α) → ℕ → α) (i j : ℕ) : α :=
  ∑ k ∈ Finset.range (utNsigma nin κ),
    xinDev nin S k i * utXoutDev nin κ S xin f k j * utWeight nin κ k

end UTCore

section ObjectModel

variable {α : Type} [LinearOrderedField α]

/-- Python exception kinds raised by the embedded code paths. -/
inductive PyErr
  | nameError
  | typeError
  | attributeError
  | assertionError
  | runtimeError (msg : String)
  | notImplementedError
  deriving DecidableEq

/-- Square-root backend selected by the `sqrt` option (kalman.py lines
366-372 and 456-462): `CholeskyUnscentedTransform` (lines 338-343) or
`SVDUnscentedTransform` (lines 346-352). -/
inductive UTBackend
  | cholesky
  | svd
  deriving DecidableEq

/-- Attribute state of an `UnscentedTransformBase` object.  `__init__`
(kalman.py lines 207-234) assigns `nin`, `kappa`, `nsigma` and `weights`; the
latter two are functions of the former and are embedded separately as
`utNsigma` and `utWeight`.  The attributes `in_dev`, `out_dev` and `in_sigma`
are read by `sigma_points_diff` and `transform_diff` (lines 292 and 313-315)
but no method in the file ever assigns them: `gen_sigma_points` and
`transform` store their results on the separate work object (lines 264-265
and 277-280).  They are modelled as optional fields, absent (`none`) unless
some code assigns them, which none does. -/
structure UTObj (α : Type) where
  backend : UTBackend
  nin : ℕ
  kappa : α
  in_dev : Option (ℕ → ℕ → α)
  out_dev : Option (ℕ → ℕ → α)
  in_sigma : Option (ℕ → ℕ → α)

/-- `UnscentedTransformBase.__init__` (kalman.py lines 207-234): records the
input dimension and kappa after asserting `nin + kappa != 0` (line 226).  The
attributes read by the derivative methods are not assigned, hence `none`. -/
def utInit (backend : UTBackend) (nin : ℕ) (κ : α) : Except PyErr (UTObj α) :=
  if (nin : α) + κ = 0 then .error .assertionError
  else .ok ⟨backend, nin, κ, none, none, none⟩

/-- Work data of the unscented transform: `UnscentedTransformBase.Work`
(kalman.py lines 237-241) stores the input mean and covariance at
construction; `gen_sigma_points` and `transform` later attach the sigma
points, the deviations and the output statistics (lines 264-265, 277-280). -/
structure UTWork (α : Type) where
  xin : ℕ → α
  Pin : ℕ → ℕ → α
  xin_sigma : Option (ℕ → ℕ → α)
  xin_dev : Option (ℕ → ℕ → α)
  xout_sigma : Option (ℕ → ℕ → α)
  xout_dev : Option (ℕ → ℕ → α)
  xout : Option (ℕ → α)
  Pout : Option (ℕ → ℕ → α)

/-- `UnscentedTransformBase.transform` (kalman.py lines 268-281), with the
result `S` of the abstract square-root method on `(nin + kappa) * Pin`
supplied by the selected backend (scipy.linalg.cholesky or scipy.linalg.svd,
both external).  The method stores the sigma points, the deviations and the
output statistics on the work object and returns the output mean and
covariance; it assigns nothing to `self`, which is why the transform object
is only read here, never returned modified. -/
def UTObj.transform (ut : UTObj α) (w : UTWork α) (S : ℕ → ℕ → α)
    (f : (ℕ → α) → ℕ → α) : UTWork α × (ℕ → α) × (ℕ → ℕ → α) :=
  ⟨⟨w.xin, w.Pin,
    some (xinSigma ut.nin S w.xin),
    some (xinDev ut.nin S),
    some (fun k j => f (fun i => xinSigma ut.nin S w.xin k i) j),
    some (utXoutDev ut.nin ut.kappa S w.xin f),
    some (utXout ut.nin ut.kappa S w.xin f),
    some (utPout ut.nin ut.kappa S w.xin f)⟩,
   utXout ut.nin ut.kappa S w.xin f,
   utPout ut.nin ut.kappa S w.xin f⟩

/-- `UnscentedTransformBase.sigma_points_diff` (kalman.py lines 289-308).
Line 292 reads `self.in_dev`; since no code path assigns that attribute the
lookup raises AttributeError, which lines 293-295 convert into the
RuntimeError below.  Were the attribute present, the next executed statement
`self.sqrt.diff(...)` (line 302) would itself raise AttributeError, because
`self.sqrt` is a plain bound method and neither backend attaches a `diff`
attribute to it (`CholeskyUnscentedTransform.sqrt`, lines 341-343, and
`SVDUnscentedTransform.sqrt`, lines 349-352, are ordinary methods), so the
remaining lines 303-308 are unreachable for both backends. -/
def UTObj.sigma_points_diff (ut : UTObj α) (mean_diff : ℕ → ℕ → α)
    (cov_diff : ℕ → ℕ → ℕ → α) : Except PyErr (ℕ → ℕ → ℕ → α) :=
  match ut.in_dev with
  | none =>
      .error (.runtimeError
        "Transform must be done before requesting derivatives.")
  | some _ => .error .attributeError

/-- `UnscentedTransformBase.transform_diff` (kalman.py lines 310-335).
Lines 313-315 read `self.in_dev`, `self.out_dev` and `self.in_sigma`; a
missing attribute raises AttributeError, which lines 316-318 convert into the
RuntimeError below.  When all three were present, line 320 would call
`sigma_points_diff`, which itself always raises (see above), so the einsum
reductions of lines 321-335 are unreachable; the result type is accordingly
collapsed to the error behaviour via `Except.map`. -/
def UTObj.transform_diff (ut : UTObj α) (mean_diff : ℕ → ℕ → α)
    (cov_diff : ℕ → ℕ → ℕ → α) : Except PyErr Unit :=
  match ut.in_dev, ut.out_dev, ut.in_sigma with
  | some _, some _, some _ =>
      (ut.sigma_points_diff mean_diff cov_diff).map fun _ => ()
  | _, _, _ =>
      .error (.runtimeError
        "Transform must be done before requesting derivatives.")

/-- Model interface consumed by the filter core (duck-typed in the source;
spec section 6).  Only the members reached by the embedded code paths are
included. -/
structure KFModel (α : Type) where
  nx : ℕ
  ny : ℕ
  f : ℕ → (ℕ → α) → (ℕ → α)
  R : ℕ → ℕ → α

/-- Work bundle of `DTUnscentedPredictor.predict`: time index, mean and
covariance (the fields of `work` that `predict` reads). -/
structure PredWork (α : Type) where
  k : ℕ
  x : ℕ → α
  Px : ℕ → ℕ → α

/-- `DTUnscentedPredictor.predict` (kalman.py lines 377-390).  Lines 379-383
run the unscented transform of `f_fun = model.f(work.k, .)` on
`(work.x, work.Px)` through the work-based transform API; `S` stands for the
external square root of `(nx + kappa) * work.Px`.  Line 384 then evaluates
`Q = self.model.Q(k, work.x)`: the name `k` is not bound in the scope of
`predict` (the function binds only `self` and `work`, `f_fun` just above
correctly spells `work.k`, and the module defines no global `k`), so Python
raises NameError while evaluating the arguments, before `prev_x`, `prev_Px`,
`k`, `x` or `Px` are updated by lines 386-390. -/
def predict (model : KFModel α) (ut : UTObj α) (S : ℕ → ℕ → α)
    (w : PredWork α) : Except PyErr (PredWork α) :=
  let f_fun : (ℕ → α) → ℕ → α := fun x => model.f w.k x
  let _transformed := ut.transform ⟨w.x, w.Px, none, none, none, none, none, none⟩ S f_fun
  .error .nameError

/-- Measurement argument of `correct`: a possibly masked numpy array with its
shape, flattened values and flattened mask (`ma.getmaskarray` returns an
all-False mask for an unmasked array). -/
structure MaskedY (α : Type) where
  shape : List ℕ
  val : List α
  mask : List Bool

/-- State attributes used by `DTUnscentedCorrector.correct`: time index,
mean, covariance and accumulated log-likelihood. -/
structure CorrState (α : Type) where
  k : ℕ
  x : ℕ → α
  Px : ℕ → ℕ → α
  L : α

/-- `DTUnscentedCorrector.correct` (kalman.py lines 500-542).  Line 502
asserts `np.shape(y) == (self.model.ny,)` with the message "No vectorization
accepted in y", before anything else is read or written.  Lines 504-506
return immediately, leaving every state attribute untouched, when all
components are masked.  Otherwise lines 508-514 build the active mask, the
compressed measurement, the restricted `R` and `h_fun`, and line 516 calls
`self.__ut.transform(h_fun, self.x, self.Px)`; `UnscentedTransformBase.transform`
(line 268) has signature `(self, work, f)`, so the call passes one positional
argument too many and raises TypeError.  (On a freshly constructed corrector
the argument lookup `self.x` would already raise AttributeError, since
nothing in the file assigns that attribute.)  The correction itself and the
likelihood update of lines 519-542 are unreachable. -/
def correct (model : KFModel α) (s : CorrState α) (y : MaskedY α) :
    Except PyErr (CorrState α) :=
  if y.shape ≠ [model.ny] then .error .assertionError
  else if y.mask.all (fun b => b) then .ok s
  else .error .typeError

end ObjectModel

/-- Log-likelihood decrement written at kalman.py lines 533-535 (the body of
`if self.pem:` inside `correct`, reachable only once the transform call of
line 516 is repaired): with the innovation `e`, the inverse innovation
covariance `PyI` and its Cholesky factor `PyC` over the `na` active
components, the stored log-likelihood becomes
`L - 0.5 * e^T PyI e - sum(log(diag(PyC)))`. -/
noncomputable def likelihoodUpdate (na : ℕ) (L : ℝ) (e : ℕ → ℝ)
    (PyI PyC : ℕ → ℕ → ℝ) : ℝ :=
  L - 0.5 * (∑ i ∈ Finset.range na, ∑ j ∈ Finset.range na, e i * PyI i j * e j)
    - ∑ i ∈ Finset.range na, Real.log (PyC i i)

section CholeskyDiffDefs

variable {α : Type} [LinearOrderedField α] {n : ℕ}

/-- Lower-triangular index pairs `(i, j)` with `i >= j`, produced by
`np.tril_indices(n)` in `cholesky_sqrt_diff` (kalman.py line 144); they index
the rows and columns of the flattened system. -/
def TrilIx (n : ℕ) := { p : Fin n × Fin n // p.2 ≤ p.1 }

instance : DecidableEq (TrilIx n) :=
  inferInstanceAs (DecidableEq { p : Fin n × Fin n // p.2 ≤ p.1 })

instance : Fintype (TrilIx n) :=
  inferInstanceAs (Fintype { p : Fin n × Fin n // p.2 ≤ p.1 })

/-- Column-major rank of a lower-triangular index pair: the pair `(i, j)`
(row `i`, column `j` of the lower-triangular unknown) is ranked by
`j * n + i`.  The flattened system matrix is lower triangular with respect to
this ranking, which yields its invertibility. -/
def trilRank {n : ℕ} (c : TrilIx n) : ℕ := (c.1.2 : ℕ) * n + (c.1.1 : ℕ)

instance : LinearOrder (TrilIx n) :=
  LinearOrder.lift' (@trilRank n) (by
    rintro ⟨⟨i1, j1⟩, h1⟩ ⟨⟨i2, j2⟩, h2⟩ h
    have hn : 0 < n := i1.pos
    have e1 : ((j1 : ℕ) * n + (i1 : ℕ)) % n = (i1 : ℕ) := by
      rw [mul_comm (j1 : ℕ) n, Nat.mul_add_mod, Nat.mod_eq_of_lt i1.isLt]
    have e2 : ((j2 : ℕ) * n + (i2 : ℕ)) % n = (i2 : ℕ) := by
      rw [mul_comm (j2 : ℕ) n, Nat.mul_add_mod, Nat.mod_eq_of_lt i2.isLt]
    have d1 : ((j1 : ℕ) * n + (i1 : ℕ)) / n = (j1 : ℕ) := by
      rw [mul_comm, Nat.mul_add_div hn, Nat.div_eq_of_lt i1.isLt, add_zero]
    have d2 : ((j2 : ℕ) * n + (i2 : ℕ)) / n = (j2 : ℕ) := by
      rw [mul_comm, Nat.mul_add_div hn, Nat.div_eq_of_lt i2.isLt, add_zero]
    have hr : (j1 : ℕ) * n + (i1 : ℕ) = (j2 : ℕ) * n + (i2 : ℕ) := h
    have hi : (i1 : ℕ) = (i2 : ℕ) := by rw [← e1, ← e2, hr]
    have hj : (j1 : ℕ) = (j2 : ℕ) := by rw [← d1, ← d2, hr]
    exact Subtype.ext (Prod.ext (Fin.ext hi) (Fin.ext hj)))

/-- Flattened system matrix built by `cholesky_sqrt_diff` (kalman.py lines
147-150): the four-index array satisfies `A[i, j, i, k] = S[k, j]` followed by
`A[i, j, j, k] += S[k, i]`, and `A_tril` keeps the rows and columns indexed by
lower-triangular pairs.  Row `(i, j)`, column `(p, k)`. -/
def cholDiffA (S : Matrix (Fin n) (Fin n) α) :
    Matrix (TrilIx n) (TrilIx n) α := fun r c =>
  (if c.1.1 = r.1.1 then S c.1.2 r.1.2 else 0)
    + (if c.1.1 = r.1.2 then S c.1.2 r.1.1 else 0)

/-- Flattened system matrix with the entries as the claim words them:
`A[(i,j),(i,k)] = L[k,j]` and `A[(i,j),(j,k)] += L[k,i]` with `L = S^T`, that
is `L[k,j] = S[j,k]`.  This definition follows the claim text, for comparison
against `cholDiffA`, which follows the source. -/
def cholDiffAClaim (S : Matrix (Fin n) (Fin n) α) :
    Matrix (TrilIx n) (TrilIx n) α := fun r c =>
  (if c.1.1 = r.1.1 then S r.1.2 c.1.2 else 0)
    + (if c.1.1 = r.1.2 then S r.1.1 c.1.2 else 0)

/-- Lower-triangular flattening of a symmetric matrix:
`dQ_tril = dQ[..., i, j]` over the lower-triangular pairs (kalman.py
line 159). -/
def trilVec (M : Matrix (Fin n) (Fin n) α) : TrilIx n → α := fun c =>
  M c.1.1 c.1.2

/-- Reassembly of the solution vector (kalman.py lines 162-163):
`dS[..., j, i] = dS_tril`, the upper-triangular matrix whose `(j, i)` entry,
for a lower-triangular pair `(i, j)`, is the solution component of that
pair. -/
def unvecTril (v : TrilIx n → α) : Matrix (Fin n) (Fin n) α := fun a b =>
  if h : a ≤ b then v ⟨(b, a), h⟩ else 0

/-- `cholesky_sqrt_diff(S, dQ)` (kalman.py lines 115-174), one derivative
slice, with the external `scipy.linalg.inv` call of line 151 modelled by the
Mathlib matrix inverse: solve `A_tril . vec(dL_tril) = vec(dQ_tril)` and
scatter the solution into the transposed, upper triangle. -/
noncomputable def cholesky_sqrt_diff (S dQ : Matrix (Fin n) (Fin n) α) :
    Matrix (Fin n) (Fin n) α :=
  unvecTril ((cholDiffA S)⁻¹ *ᵥ trilVec dQ)

end CholeskyDiffDefs

section SqrtDefs

/-- `SVDUnscentedTransform.sqrt` (kalman.py lines 349-352), and likewise the
helper `svd_sqrt` (lines 69-88): given the factors `U`, `s` produced by the
external `scipy.linalg.svd` on the symmetric positive-semidefinite input,
return `np.transpose(U * np.sqrt(s))`, the transpose of `U` with its columns
scaled by the square roots of the singular values.  For a symmetric
positive-semidefinite input the singular value decomposition has `V = U`,
i.e. the input equals `U diag(s) U^T`. -/
noncomputable def svd_sqrt {n : ℕ} (U : Matrix (Fin n) (Fin n) ℝ)
    (s : Fin n → ℝ) : Matrix (Fin n) (Fin n) ℝ :=
  (U * Matrix.diagonal fun i => Real.sqrt (s i))ᵀ

/-- `CholeskyUnscentedTransform.sqrt` (kalman.py lines 341-343) returns
`scipy.linalg.cholesky(Q, lower=False)`.  The scipy routine is external to
the repository; its contract is the upper-triangular Cholesky factor of a
symmetric positive-definite input, with positive diagonal, satisfying
`S^T S = Q`.  The factor exists and the contract is realizable: see
`cholesky_factor_exists`. -/
noncomputable def cholesky_upper {n : ℕ} (Q : Matrix (Fin n) (Fin n) ℝ) :
    Matrix (Fin n) (Fin n) ℝ :=
  open Classical in
  if h : ∃ S : Matrix (Fin n) (Fin n) ℝ,
      (∀ i j : Fin n, j < i → S i j = 0) ∧ (∀ i, 0 < S i i) ∧ Sᵀ * S = Q
  then h.choose else 0

end SqrtDefs

section UTCoreLemmas

variable {α : Type} [LinearOrderedField α]

/-- The transform weights sum to one (for a nonzero input dimension and
`nin + kappa` nonzero). -/
theorem utWeight_sum (nin : ℕ) (κ : α) (h1 : 1 ≤ nin) (h2 : (nin : α) + κ ≠ 0) :
    ∑ k ∈ Finset.range (utNsigma nin κ), utWeight nin κ k = 1 := by
  by_cases hκ : κ = 0
  · subst hκ
    have hn : (nin : α) ≠ 0 := by simpa using h2
    have hns : utNsigma nin (0 : α) = 2 * nin := by simp [utNsigma]
    have hw : ∀ k ∈ Finset.range (2 * nin), utWeight nin (0 : α) k
        = 1 / (2 * ((nin : α) + 0)) := by
      intro k _
      simp [utWeight]
    rw [hns, Finset.sum_congr rfl hw, Finset.sum_const, Finset.card_range,
      nsmul_eq_mul]
    push_cast
    field_simp
  · have hns : utNsigma nin κ = 2 * nin + 1 := by simp [utNsigma, hκ]
    have hw : ∀ k ∈ Finset.range (2 * nin), utWeight nin κ k
        = 1 / (2 * ((nin : α) + κ)) := by
      intro k hk
      rw [Finset.mem_range] at hk
      have : ¬(κ ≠ 0 ∧ k = 2 * nin) := by
        rintro ⟨-, rfl⟩
        omega
      rw [utWeight, if_neg this]
    have hwlast : utWeight nin κ (2 * nin) = κ / ((nin : α) + κ) := by
      rw [utWeight, if_pos ⟨hκ, rfl⟩]
    rw [hns, Finset.sum_range_succ, Finset.sum_congr rfl hw, Finset.sum_const,
      Finset.card_range, nsmul_eq_mul, hwlast]
    push_cast
    field_simp
    ring

/-- The weighted sum of the deviations vanishes in every coordinate: the first
`nin` rows of the deviation array cancel against the next `nin` rows, and the
optional center row is zero. -/
theorem utWeight_dev_sum (nin : ℕ) (κ : α) (S : ℕ → ℕ → α) (i : ℕ) :
    ∑ k ∈ Finset.range (utNsigma nin κ), utWeight nin κ k * xinDev nin S k i
      = 0 := by
  have hsplit : ∑ k ∈ Finset.range (2 * nin), utWeight nin κ k * xinDev nin S k i
      = 0 := by
    rw [two_mul, Finset.sum_range_add]
    have e1 : ∀ k ∈ Finset.range nin, utWeight nin κ k * xinDev nin S k i
        = 1 / (2 * ((nin : α) + κ)) * S k i := by
      intro k hk
      rw [Finset.mem_range] at hk
      have hw : ¬(κ ≠ 0 ∧ k = 2 * nin) := by
        rintro ⟨-, rfl⟩
        omega
      rw [utWeight, if_neg hw, xinDev, if_pos hk]
    have e2 : ∀ k ∈ Finset.range nin,
        utWeight nin κ (nin + k) * xinDev nin S (nin + k) i
        = -(1 / (2 * ((nin : α) + κ)) * S k i) := by
      intro k hk
      rw [Finset.mem_range] at hk
      have hw : ¬(κ ≠ 0 ∧ nin + k = 2 * nin) := by
        rintro ⟨-, h⟩
        omega
      have h4 : ¬(nin + k < nin) := by omega
      have h5 : nin + k < 2 * nin := by omega
      rw [utWeight, if_neg hw, xinDev, if_neg h4, if_pos h5,
        Nat.add_sub_cancel_left, mul_neg]
    rw [Finset.sum_congr rfl e1, Finset.sum_congr rfl e2,
      Finset.sum_neg_distrib, add_neg_cancel]
  by_cases hκ : κ = 0
  · have hns : utNsigma nin κ = 2 * nin := by simp [utNsigma, hκ]
    rw [hns]
    exact hsplit
  · have hns : utNsigma nin κ = 2 * nin + 1 := by simp [utNsigma, hκ]
    have hc : xinDev nin S (2 * nin) i = 0 := by
      rw [xinDev, if_neg (by omega), if_neg (by omega)]
    rw [hns, Finset.sum_range_succ, hsplit, hc, mul_zero, add_zero]

/-- Weighted mean of the sigma points: the unscented transform recovers the
input mean exactly, in every coordinate. -/
theorem utWeight_sigma_sum (nin : ℕ) (κ : α) (S : ℕ → ℕ → α) (x : ℕ → α)
    (h1 : 1 ≤ nin) (h2 : (nin : α) + κ ≠ 0) (i : ℕ) :
    ∑ k ∈ Finset.range (utNsigma nin κ), utWeight nin κ k * xinSigma nin S x k i
      = x i := by
  have e : ∀ k ∈ Finset.range (utNsigma nin κ),
      utWeight nin κ k * xinSigma nin S x k i
      = utWeight nin κ k * xinDev nin S k i + utWeight nin κ k * x i := by
    intro k _
    rw [xinSigma]
    ring
  rw [Finset.sum_congr rfl e, Finset.sum_add_distrib, utWeight_dev_sum,
    ← Finset.sum_mul, utWeight_sum nin κ h1 h2, zero_add, one_mul]

/-- Weighted second moment of the deviations: the unscented transform recovers
the input covariance exactly, given the square-root contract
`S^T S = (nin + kappa) * Pin` on the leading `nin` indices. -/
theorem utWeight_dev_dev_sum (nin : ℕ) (κ : α) (S : ℕ → ℕ → α) (Px : ℕ → ℕ → α)
    (h2 : (nin : α) + κ ≠ 0)
    (hS : ∀ i < nin, ∀ j < nin,
      (∑ k ∈ Finset.range nin, S k i * S k j) = ((nin : α) + κ) * Px i j)
    (i : ℕ) (hi : i < nin) (j : ℕ) (hj : j < nin) :
    ∑ k ∈ Finset.range (utNsigma nin κ),
        utWeight nin κ k * (xinDev nin S k i * xinDev nin S k j)
      = Px i j := by
  have hsplit : ∑ k ∈ Finset.range (2 * nin),
      utWeight nin κ k * (xinDev nin S k i * xinDev nin S k j)
      = Px i j := by
    rw [two_mul, Finset.sum_range_add]
    have e1 : ∀ k ∈ Finset.range nin,
        utWeight nin κ k * (xinDev nin S k i * xinDev nin S k j)
        = 1 / (2 * ((nin : α) + κ)) * (S k i * S k j) := by
      intro k hk
      rw [Finset.mem_range] at hk
      have hw : ¬(κ ≠ 0 ∧ k = 2 * nin) := by
        rintro ⟨-, rfl⟩
        omega
      simp only [utWeight, xinDev]
      rw [if_neg hw, if_pos hk, if_pos hk]
    have e2 : ∀ k ∈ Finset.range nin,
        utWeight nin κ (nin + k)
          * (xinDev nin S (nin + k) i * xinDev nin S (nin + k) j)
        = 1 / (2 * ((nin : α) + κ)) * (S k i * S k j) := by
      intro k hk
      rw [Finset.mem_range] at hk
      have hw : ¬(κ ≠ 0 ∧ nin + k = 2 * nin) := by
        rintro ⟨-, h⟩
        omega
      have h4 : ¬(nin + k < nin) := by omega
      have h5 : nin + k < 2 * nin := by omega
      simp only [utWeight, xinDev]
      rw [if_neg hw, if_neg h4, if_pos h5, if_neg h4, if_pos h5,
        Nat.add_sub_cancel_left, neg_mul_neg]
    rw [Finset.sum_congr rfl e1, Finset.sum_congr rfl e2, ← Finset.mul_sum,
      hS i hi j hj]
    field_simp
    ring
  by_cases hκ : κ = 0
  · have hns : utNsigma nin κ = 2 * nin := by simp [utNsigma, hκ]
    rw [hns]
    exact hsplit
  · have hns : utNsigma nin κ = 2 * nin + 1 := by simp [utNsigma, hκ]
    have hc : xinDev nin S (2 * nin) i = 0 := by
      rw [xinDev, if_neg (by omega), if_neg (by omega)]
    rw [hns, Finset.sum_range_succ, hsplit, hc, zero_mul, mul_zero, add_zero]

/-- C1.  Sigma-point reconstruction: for every input dimension `nin >= 1`,
every `kappa` with `nin + kappa != 0`, every mean `x` and every covariance `Px`
whose square root satisfies the contract `S^T S = (nin + kappa) * Px` (true of
both backends on a symmetric positive-definite `Px`), the sigma points produced
by `gen_sigma_points` together with the transform weights satisfy, in exact
arithmetic, the weighted mean identity and the weighted deviation outer-product
identity. -/
theorem sigma_point_reconstruction (nin : ℕ) (κ : α) (x : ℕ → α)
    (Px S : ℕ → ℕ → α) (h1 : 1 ≤ nin) (h2 : (nin : α) + κ ≠ 0)
    (hS : ∀ i < nin, ∀ j < nin,
      (∑ k ∈ Finset.range nin, S k i * S k j) = ((nin : α) + κ) * Px i j) :
    (∀ i, ∑ k ∈ Finset.range (utNsigma nin κ),
        utWeight nin κ k * xinSigma nin S x k i = x i)
    ∧ (∀ i < nin, ∀ j < nin,
        ∑ k ∈ Finset.range (utNsigma nin κ),
          utWeight nin κ k
            * ((xinSigma nin S x k i - x i) * (xinSigma nin S x k j - x j))
        = Px i j) := by
  constructor
  · exact utWeight_sigma_sum nin κ S x h1 h2
  · intro i hi j hj
    have e : ∀ k i', xinSigma nin S x k i' - x i' = xinDev nin S k i' := by
      intro k i'
      rw [xinSigma, add_sub_cancel_right]
    simp only [e]
    exact utWeight_dev_dev_sum nin κ S Px h2 hS i hi j hj

/-- Witness for C1 at `nin = 1`, `kappa = 0`, `x = (3)`, `Px = (4)`, `S = (2)`
over the rationals. -/
theorem sigma_point_reconstruction_witness :
    ((1 ≤ 1) ∧ ((1 : ℚ) + 0 ≠ 0)
      ∧ (∀ i < 1, ∀ j < 1,
        (∑ k ∈ Finset.range 1,
          (fun _ _ => (2 : ℚ)) k i * (fun _ _ => (2 : ℚ)) k j)
          = ((1 : ℚ) + 0) * (fun _ _ => (4 : ℚ)) i j))
    ∧ ((∀ i, ∑ k ∈ Finset.range (utNsigma 1 (0 : ℚ)),
          utWeight 1 (0 : ℚ) k
            * xinSigma 1 (fun _ _ => (2 : ℚ)) (fun _ => (3 : ℚ)) k i
          = (fun _ => (3 : ℚ)) i)
      ∧ (∀ i < 1, ∀ j < 1,
          ∑ k ∈ Finset.range (utNsigma 1 (0 : ℚ)),
            utWeight 1 (0 : ℚ) k
              * ((xinSigma 1 (fun _ _ => (2 : ℚ)) (fun _ => (3 : ℚ)) k i
                    - (fun _ => (3 : ℚ)) i)
                * (xinSigma 1 (fun _ _ => (2 : ℚ)) (fun _ => (3 : ℚ)) k j
                    - (fun _ => (3 : ℚ)) j))
          = (fun _ _ => (4 : ℚ)) i j)) :=
  ⟨⟨le_refl 1, by norm_num, by intro i _ j _; norm_num [Finset.sum_range_one]⟩,
    sigma_point_reconstruction 1 0 (fun _ => (3 : ℚ)) (fun _ _ => (4 : ℚ))
      (fun _ _ => (2 : ℚ)) (le_refl 1) (by norm_num)
      (by intro i _ j _; norm_num [Finset.sum_range_one])⟩

/-- Output mean of the unscented transform of an affine row map
`f(v) = A v + b`: the transform recovers `A x + b` exactly. -/
theorem affine_xout (nin : ℕ) (κ : α) (S : ℕ → ℕ → α) (x : ℕ → α)
    (A : ℕ → ℕ → α) (bb : ℕ → α) (h1 : 1 ≤ nin) (h2 : (nin : α) + κ ≠ 0)
    (j : ℕ) :
    utXout nin κ S x (fun v j' => (∑ m ∈ Finset.range nin, A j' m * v m) + bb j') j
      = (∑ m ∈ Finset.range nin, A j m * x m) + bb j := by
  unfold utXout
  calc
    ∑ k ∈ Finset.range (utNsigma nin κ),
        utWeight nin κ k
          * ((∑ m ∈ Finset.range nin, A j m * xinSigma nin S x k m) + bb j)
      = ∑ k ∈ Finset.range (utNsigma nin κ),
          ((∑ m ∈ Finset.range nin,
              A j m * (utWeight nin κ k * xinSigma nin S x k m))
            + utWeight nin κ k * bb j) := by
        refine Finset.sum_congr rfl fun k _ => ?_
        rw [mul_add, Finset.mul_sum]
        congr 1
        exact Finset.sum_congr rfl fun m _ => by ring
    _ = (∑ k ∈ Finset.range (utNsigma nin κ), ∑ m ∈ Finset.range nin,
          A j m * (utWeight nin κ k * xinSigma nin S x k m))
        + (∑ k ∈ Finset.range (utNsigma nin κ), utWeight nin κ k) * bb j := by
        rw [Finset.sum_add_distrib, ← Finset.sum_mul]
    _ = (∑ m ∈ Finset.range nin,
          A j m * (∑ k ∈ Finset.range (utNsigma nin κ),
            utWeight nin κ k * xinSigma nin S x k m))
        + (∑ k ∈ Finset.range (utNsigma nin κ), utWeight nin κ k) * bb j := by
        rw [Finset.sum_comm]
        congr 1
        exact Finset.sum_congr rfl fun m _ => by rw [← Finset.mul_sum]
    _ = (∑ m ∈ Finset.range nin, A j m * x m) + bb j := by
        rw [utWeight_sum nin κ h1 h2, one_mul]
        congr 1
        exact Finset.sum_congr rfl fun m _ => by
          rw [utWeight_sigma_sum nin κ S x h1 h2 m]

/-- Output deviations of the unscented transform of an affine row map are the
linear images of the input deviations. -/
theorem affine_xoutDev (nin : ℕ) (κ : α) (S : ℕ → ℕ → α) (x : ℕ → α)
    (A : ℕ → ℕ → α) (bb : ℕ → α) (h1 : 1 ≤ nin) (h2 : (nin : α) + κ ≠ 0)
    (k j : ℕ) :
    utXoutDev nin κ S x
        (fun v j' => (∑ m ∈ Finset.range nin, A j' m * v m) + bb j') k j
      = ∑ m ∈ Finset.range nin, A j m * xinDev nin S k m := by
  unfold utXoutDev
  rw [affine_xout nin κ S x A bb h1 h2 j]
  show ((∑ m ∈ Finset.range nin, A j m * xinSigma nin S x k m) + bb j)
      - ((∑ m ∈ Finset.range nin, A j m * x m) + bb j) = _
  rw [add_sub_add_right_eq_sub, ← Finset.sum_sub_distrib]
  refine Finset.sum_congr rfl fun m _ => ?_
  simp only [xinSigma]
  ring

/-- Output covariance of the unscented transform of an affine row map:
exactly `A Px A^T`, given the square-root contract. -/
theorem affine_Pout (nin : ℕ) (κ : α) (S : ℕ → ℕ → α) (x : ℕ → α)
    (Px A : ℕ → ℕ → α) (bb : ℕ → α) (h1 : 1 ≤ nin) (h2 : (nin : α) + κ ≠ 0)
    (hS : ∀ i < nin, ∀ j < nin,
      (∑ k ∈ Finset.range nin, S k i * S k j) = ((nin : α) + κ) * Px i j)
    (i j : ℕ) :
    utPout nin κ S x
        (fun v j' => (∑ m ∈ Finset.range nin, A j' m * v m) + bb j') i j
      = ∑ m ∈ Finset.range nin, ∑ l ∈ Finset.range nin,
          A i m * Px m l * A j l := by
  unfold utPout
  calc
    ∑ k ∈ Finset.range (utNsigma nin κ),
        utXoutDev nin κ S x
            (fun v j' => (∑ m ∈ Finset.range nin, A j' m * v m) + bb j') k i
          * utXoutDev nin κ S x
              (fun v j' => (∑ m ∈ Finset.range nin, A j' m * v m) + bb j') k j
          * utWeight nin κ k
      = ∑ k ∈ Finset.range (utNsigma nin κ),
          (∑ m ∈ Finset.range nin, A i m * xinDev nin S k m)
            * (∑ l ∈ Finset.range nin, A j l * xinDev nin S k l)
            * utWeight nin κ k := by
        refine Finset.sum_congr rfl fun k _ => ?_
        rw [affine_xoutDev nin κ S x A bb h1 h2 k i,
          affine_xoutDev nin κ S x A bb h1 h2 k j]
    _ = ∑ k ∈ Finset.range (utNsigma nin κ), ∑ m ∈ Finset.range nin,
          ∑ l ∈ Finset.range nin,
            utWeight nin κ k * (xinDev nin S k m * xinDev nin S k l)
              * (A i m * A j l) := by
        refine Finset.sum_congr rfl fun k _ => ?_
        rw [Finset.sum_mul_sum, Finset.sum_mul]
        refine Finset.sum_congr rfl fun m _ => ?_
        rw [Finset.sum_mul]
        exact Finset.sum_congr rfl fun l _ => by ring
    _ = ∑ m ∈ Finset.range nin, ∑ l ∈ Finset.range nin,
          (∑ k ∈ Finset.range (utNsigma nin κ),
            utWeight nin κ k * (xinDev nin S k m * xinDev nin S k l))
            * (A i m * A j l) := by
        rw [Finset.sum_comm]
        refine Finset.sum_congr rfl fun m _ => ?_
        rw [Finset.sum_comm]
        exact Finset.sum_congr rfl fun l _ => by rw [← Finset.sum_mul]
    _ = ∑ m ∈ Finset.range nin, ∑ l ∈ Finset.range nin,
          A i m * Px m l * A j l := by
        refine Finset.sum_congr rfl fun m hm => ?_
        refine Finset.sum_congr rfl fun l hl => ?_
        rw [Finset.mem_range] at hm hl
        rw [utWeight_dev_dev_sum nin κ S Px h2 hS m hm l hl]
        ring

/-- Input-output cross covariance of the unscented transform of an affine row
map: exactly `Px A^T` on the input index range, given the square-root
contract. -/
theorem affine_crosscov (nin : ℕ) (κ : α) (S : ℕ → ℕ → α) (x : ℕ → α)
    (Px A : ℕ → ℕ → α) (bb : ℕ → α) (h1 : 1 ≤ nin) (h2 : (nin : α) + κ ≠ 0)
    (hS : ∀ i < nin, ∀ j < nin,
      (∑ k ∈ Finset.range nin, S k i * S k j) = ((nin : α) + κ) * Px i j)
    (i : ℕ) (hi : i < nin) (j : ℕ) :
    utCrosscov nin κ S x
        (fun v j' => (∑ m ∈ Finset.range nin, A j' m * v m) + bb j') i j
      = ∑ l ∈ Finset.range nin, Px i l * A j l := by
  unfold utCrosscov
  calc
    ∑ k ∈ Finset.range (utNsigma nin κ),
        xinDev nin S k i
          * utXoutDev nin κ S x
              (fun v j' => (∑ m ∈ Finset.range nin, A j' m * v m) + bb j') k j
          * utWeight nin κ k
      = ∑ k ∈ Finset.range (utNsigma nin κ), ∑ l ∈ Finset.range nin,
          utWeight nin κ k * (xinDev nin S k i * xinDev nin S k l)
            * A j l := by
        refine Finset.sum_congr rfl fun k _ => ?_
        rw [affine_xoutDev nin κ S x A bb h1 h2 k j, Finset.mul_sum,
          Finset.sum_mul]
        exact Finset.sum_congr rfl fun l _ => by ring
    _ = ∑ l ∈ Finset.range nin,
          (∑ k ∈ Finset.range (utNsigma nin κ),
            utWeight nin κ k * (xinDev nin S k i * xinDev nin S k l)) * A j l := by
        rw [Finset.sum_comm]
        exact Finset.sum_congr rfl fun l _ => by rw [← Finset.sum_mul]
    _ = ∑ l ∈ Finset.range nin, Px i l * A j l := by
        refine Finset.sum_congr rfl fun l hl => ?_
        rw [Finset.mem_range] at hl
        rw [utWeight_dev_dev_sum nin κ S Px h2 hS i hi l hl]

/-- C6.  Affine UT exactness: for every affine map `f(v) = A v + b`, every mean
`x` and every covariance `Px` whose square root satisfies the backend contract
`S^T S = (nin + kappa) * Px` (true for a symmetric positive-definite `Px`),
`transform` returns output mean exactly `A x + b` and output covariance exactly
`A Px A^T`, and a subsequent `crosscov` call returns exactly `Px A^T`, all in
exact arithmetic. -/
theorem affine_ut_exact (nin : ℕ) (κ : α) (S : ℕ → ℕ → α) (x : ℕ → α)
    (Px A : ℕ → ℕ → α) (bb : ℕ → α) (f : (ℕ → α) → ℕ → α)
    (h1 : 1 ≤ nin) (h2 : (nin : α) + κ ≠ 0)
    (hS : ∀ i < nin, ∀ j < nin,
      (∑ k ∈ Finset.range nin, S k i * S k j) = ((nin : α) + κ) * Px i j)
    (hf : f = fun v j' => (∑ m ∈ Finset.range nin, A j' m * v m) + bb j') :
    (∀ j, utXout nin κ S x f j = (∑ m ∈ Finset.range nin, A j m * x m) + bb j)
    ∧ (∀ i j, utPout nin κ S x f i j
        = ∑ m ∈ Finset.range nin, ∑ l ∈ Finset.range nin,
            A i m * Px m l * A j l)
    ∧ (∀ i < nin, ∀ j, utCrosscov nin κ S x f i j
        = ∑ l ∈ Finset.range nin, Px i l * A j l) := by
  subst hf
  exact ⟨affine_xout nin κ S x A bb h1 h2,
    affine_Pout nin κ S x Px A bb h1 h2 hS,
    fun i hi j => affine_crosscov nin κ S x Px A bb h1 h2 hS i hi j⟩

/-- Witness for C6 at `nin = 1`, `kappa = 0`, `x = (3)`, `Px = (4)`, `S = (2)`,
`A = (5)`, `b = (7)` over the rationals. -/
theorem affine_ut_exact_witness :
    ((1 ≤ 1) ∧ ((1 : ℚ) + 0 ≠ 0)
      ∧ (∀ i < 1, ∀ j < 1,
        (∑ k ∈ Finset.range 1,
          (fun _ _ => (2 : ℚ)) k i * (fun _ _ => (2 : ℚ)) k j)
          = ((1 : ℚ) + 0) * (fun _ _ => (4 : ℚ)) i j))
    ∧ ((∀ j, utXout 1 (0 : ℚ) (fun _ _ => (2 : ℚ)) (fun _ => (3 : ℚ))
          (fun v j' => (∑ m ∈ Finset.range 1, (fun _ _ => (5 : ℚ)) j' m * v m)
            + (fun _ => (7 : ℚ)) j') j
          = (∑ m ∈ Finset.range 1,
              (fun _ _ => (5 : ℚ)) j m * (fun _ => (3 : ℚ)) m)
            + (fun _ => (7 : ℚ)) j)
      ∧ (∀ i j, utPout 1 (0 : ℚ) (fun _ _ => (2 : ℚ)) (fun _ => (3 : ℚ))
          (fun v j' => (∑ m ∈ Finset.range 1, (fun _ _ => (5 : ℚ)) j' m * v m)
            + (fun _ => (7 : ℚ)) j') i j
          = ∑ m ∈ Finset.range 1, ∑ l ∈ Finset.range 1,
              (fun _ _ => (5 : ℚ)) i m * (fun _ _ => (4 : ℚ)) m l
                * (fun _ _ => (5 : ℚ)) j l)
      ∧ (∀ i < 1, ∀ j, utCrosscov 1 (0 : ℚ) (fun _ _ => (2 : ℚ))
          (fun _ => (3 : ℚ))
          (fun v j' => (∑ m ∈ Finset.range 1, (fun _ _ => (5 : ℚ)) j' m * v m)
            + (fun _ => (7 : ℚ)) j') i j
          = ∑ l ∈ Finset.range 1,
              (fun _ _ => (4 : ℚ)) i l * (fun _ _ => (5 : ℚ)) j l)) :=
  ⟨⟨le_refl 1, by norm_num, by intro i _ j _; norm_num [Finset.sum_range_one]⟩,
    affine_ut_exact 1 0 (fun _ _ => (2 : ℚ)) (fun _ => (3 : ℚ))
      (fun _ _ => (4 : ℚ)) (fun _ _ => (5 : ℚ)) (fun _ => (7 : ℚ)) _
      (le_refl 1) (by norm_num)
      (by intro i _ j _; norm_num [Finset.sum_range_one]) rfl⟩

end UTCoreLemmas

section ObjectLemmas

variable {α : Type} [LinearOrderedField α]

/-- C4 (code bug).  The claim describes the intended postcondition of
`DTUnscentedPredictor.predict`: propagate `(x, Px)` through the unscented
transform of the drift, evaluate `Q = Model.Q` at the pre-update time index
and state, save `prev_x` and `prev_Px`, then advance the state.  The code
instead always raises NameError: line 384 reads the unbound name `k` (the
surrounding function binds only `self` and `work`; the intended expression,
used correctly by `f_fun` on line 380, is `work.k`), so no call to `predict`
ever reaches the state update of lines 386-390. -/
theorem predict_always_raises_nameError (model : KFModel α) (ut : UTObj α)
    (S : ℕ → ℕ → α) (w : PredWork α) :
    predict model ut S w = .error .nameError := rfl

/-- C5 (code bug).  The likelihood decrement of lines 531-535 matches the
claim formula, but it is unreachable: with at least one active measurement
component, `correct` raises TypeError at line 516, where it calls
`self.__ut.transform(h_fun, self.x, self.Px)` against the two-parameter
signature `transform(self, work, f)` of line 268.  Concrete failing
evaluation with `ny = 1` and the unmasked measurement `y = (1/2)`. -/
theorem correct_active_raises_typeError :
    correct (⟨1, 1, fun _ x => x, fun _ _ => 1⟩ : KFModel ℚ)
        ⟨0, fun _ => 0, fun _ _ => 1, 0⟩
        ⟨[1], [(1 : ℚ) / 2], [false]⟩
      = .error .typeError := rfl

/-- C7.  Masking frame property: a measurement whose components are all
masked makes `correct` return without error and leave the state, hence the
mean `x`, the covariance `Px` and the accumulated log-likelihood `L`,
unchanged (kalman.py lines 500-506). -/
theorem correct_all_masked_noop (model : KFModel α) (s : CorrState α)
    (y : MaskedY α) (hshape : y.shape = [model.ny])
    (hmask : y.mask.all (fun b => b) = true) :
    correct model s y = .ok s := by
  rw [correct, if_neg (by simp [hshape]), if_pos hmask]

/-- Witness for C7: `ny = 1`, fully masked measurement. -/
theorem correct_all_masked_noop_witness :
    ((⟨[1], [(5 : ℚ)], [true]⟩ : MaskedY ℚ).shape
        = [(⟨1, 1, fun _ x => x, fun _ _ => 1⟩ : KFModel ℚ).ny])
    ∧ ((⟨[1], [(5 : ℚ)], [true]⟩ : MaskedY ℚ).mask.all (fun b => b) = true)
    ∧ correct (⟨1, 1, fun _ x => x, fun _ _ => 1⟩ : KFModel ℚ)
        ⟨0, fun _ => 0, fun _ _ => 1, 0⟩ ⟨[1], [(5 : ℚ)], [true]⟩
      = .ok ⟨0, fun _ => 0, fun _ _ => 1, 0⟩ :=
  ⟨rfl, rfl,
    correct_all_masked_noop (⟨1, 1, fun _ x => x, fun _ _ => 1⟩ : KFModel ℚ)
      ⟨0, fun _ => 0, fun _ _ => 1, 0⟩ ⟨[1], [(5 : ℚ)], [true]⟩ rfl rfl⟩

/-- C10.  Interface guard: any measurement argument whose shape differs from
`(ny,)` fails the assertion of kalman.py line 502 ("No vectorization accepted
in y"), the first statement of `correct`, before the mask is read or any
state is touched; batched or vectorized arrays are thereby rejected. -/
theorem correct_rejects_vectorized (model : KFModel α) (s : CorrState α)
    (y : MaskedY α) (hshape : y.shape ≠ [model.ny]) :
    correct model s y = .error .assertionError := by
  rw [correct, if_pos hshape]

/-- Witness for C10: a batched measurement array of shape `(2, 1)` against
`ny = 1`. -/
theorem correct_rejects_vectorized_witness :
    ((⟨[2, 1], [(5 : ℚ), 6], [false, false]⟩ : MaskedY ℚ).shape
        ≠ [(⟨1, 1, fun _ x => x, fun _ _ => 1⟩ : KFModel ℚ).ny])
    ∧ correct (⟨1, 1, fun _ x => x, fun _ _ => 1⟩ : KFModel ℚ)
        ⟨0, fun _ => 0, fun _ _ => 1, 0⟩
        ⟨[2, 1], [(5 : ℚ), 6], [false, false]⟩
      = .error .assertionError :=
  ⟨by decide,
    correct_rejects_vectorized (⟨1, 1, fun _ x => x, fun _ _ => 1⟩ : KFModel ℚ)
      ⟨0, fun _ => 0, fun _ _ => 1, 0⟩
      ⟨[2, 1], [(5 : ℚ), 6], [false, false]⟩ (by decide)⟩

/-- C8 (code bug).  The claim says the derivative methods raise the
not-transformed error exactly when called before the forward pass, and in
particular not after a successful forward transform on the same object.  In
the code the forward pass (`gen_sigma_points`, `transform`) stores its
results on the work object and assigns nothing to `self`, while
`sigma_points_diff` and `transform_diff` look the deviations up on `self`
(lines 292, 313-315); the lookup therefore fails on every object the
constructor can produce, whether or not a forward transform was run
(`UTObj.transform` does not touch the object, as its embedding shows), and
both methods always raise the not-transformed RuntimeError. -/
theorem diff_always_raises_not_transformed (backend : UTBackend) (nin : ℕ)
    (κ : α) (ut : UTObj α) (h : utInit backend nin κ = .ok ut)
    (mean_diff : ℕ → ℕ → α) (cov_diff : ℕ → ℕ → ℕ → α) :
    ut.sigma_points_diff mean_diff cov_diff
        = .error (.runtimeError
            "Transform must be done before requesting derivatives.")
    ∧ ut.transform_diff mean_diff cov_diff
        = .error (.runtimeError
            "Transform must be done before requesting derivatives.") := by
  rw [utInit] at h
  split at h
  · simp at h
  · injection h with h2
    subst h2
    exact ⟨rfl, rfl⟩

/-- Witness for C8: the cholesky backend with `nin = 1`, `kappa = 0` over the
rationals. -/
theorem diff_always_raises_not_transformed_witness :
    (utInit UTBackend.cholesky 1 (0 : ℚ)
        = .ok ⟨UTBackend.cholesky, 1, 0, none, none, none⟩)
    ∧ (UTObj.sigma_points_diff ⟨UTBackend.cholesky, 1, (0 : ℚ), none, none, none⟩
          (fun _ _ => 0) (fun _ _ _ => 0)
        = .error (.runtimeError
            "Transform must be done before requesting derivatives.")
      ∧ UTObj.transform_diff ⟨UTBackend.cholesky, 1, (0 : ℚ), none, none, none⟩
          (fun _ _ => 0) (fun _ _ _ => 0)
        = .error (.runtimeError
            "Transform must be done before requesting derivatives.")) :=
  ⟨by rw [utInit, if_neg (by norm_num)],
    diff_always_raises_not_transformed UTBackend.cholesky 1 (0 : ℚ)
      ⟨UTBackend.cholesky, 1, 0, none, none, none⟩
      (by rw [utInit, if_neg (by norm_num)]) (fun _ _ => 0) (fun _ _ _ => 0)⟩

/-- C9 counterexample.  Requesting the square-root derivative from the SVD
backend (the request point is `self.sqrt.diff` inside `sigma_points_diff`,
line 302) does not produce a NotImplementedError at a concrete input: the
call fails first with the not-transformed RuntimeError, a different
exception. -/
theorem svd_sqrt_diff_not_notImplemented :
    (UTObj.sigma_points_diff ⟨UTBackend.svd, 1, (0 : ℚ), none, none, none⟩
        (fun _ _ => 0) (fun _ _ _ => 0)
      = .error (.runtimeError
          "Transform must be done before requesting derivatives."))
    ∧ PyErr.runtimeError "Transform must be done before requesting derivatives."
        ≠ PyErr.notImplementedError :=
  ⟨rfl, by decide⟩

/-- C9 (amended).  Requesting the square-root derivative from the SVD backend
always fails at the point of the request, but not with a dedicated
not-implemented error: on every object the constructor can produce the
attribute check of `sigma_points_diff` raises the not-transformed
RuntimeError, and even with the deviations attribute present the lookup
`self.sqrt.diff` would raise AttributeError, because
`SVDUnscentedTransform.sqrt` (lines 349-352) is a plain method without a
`diff` attribute. -/
theorem svd_sqrt_diff_request_fails (nin : ℕ) (κ : α) (ut : UTObj α)
    (h : utInit UTBackend.svd nin κ = .ok ut)
    (mean_diff : ℕ → ℕ → α) (cov_diff : ℕ → ℕ → ℕ → α) :
    (ut.sigma_points_diff mean_diff cov_diff
        = .error (.runtimeError
            "Transform must be done before requesting derivatives."))
    ∧ (∀ d : ℕ → ℕ → α,
        UTObj.sigma_points_diff ⟨UTBackend.svd, nin, κ, some d, ut.out_dev, ut.in_sigma⟩
            mean_diff cov_diff
          = .error .attributeError) := by
  rw [utInit] at h
  split at h
  · simp at h
  · injection h with h2
    subst h2
    exact ⟨rfl, fun d => rfl⟩

/-- Witness for C9 at `nin = 1`, `kappa = 0` over the rationals. -/
theorem svd_sqrt_diff_request_fails_witness :
    (utInit UTBackend.svd 1 (0 : ℚ)
        = .ok ⟨UTBackend.svd, 1, 0, none, none, none⟩)
    ∧ ((UTObj.sigma_points_diff ⟨UTBackend.svd, 1, (0 : ℚ), none, none, none⟩
          (fun _ _ => 0) (fun _ _ _ => 0)
        = .error (.runtimeError
            "Transform must be done before requesting derivatives."))
      ∧ (∀ d : ℕ → ℕ → ℚ,
          UTObj.sigma_points_diff ⟨UTBackend.svd, 1, (0 : ℚ), some d, none, none⟩
              (fun _ _ => 0) (fun _ _ _ => 0)
            = .error .attributeError)) :=
  ⟨by rw [utInit, if_neg (by norm_num)],
    svd_sqrt_diff_request_fails 1 (0 : ℚ)
      ⟨UTBackend.svd, 1, 0, none, none, none⟩
      (by rw [utInit, if_neg (by norm_num)]) (fun _ _ => 0) (fun _ _ _ => 0)⟩

end ObjectLemmas

section CholeskyDiffLemmas

variable {α : Type} [LinearOrderedField α] {n : ℕ}

/-- A sum over the lower-triangular index pairs rewritten as a double sum
over all pairs, guarded by the triangularity condition. -/
theorem sum_trilIx (g : TrilIx n → α) :
    ∑ c : TrilIx n, g c
      = ∑ p : Fin n, ∑ k : Fin n, if h : k ≤ p then g ⟨(p, k), h⟩ else 0 := by
  classical
  calc
    ∑ c : TrilIx n, g c
      = ∑ q ∈ Finset.univ.filter (fun q : Fin n × Fin n => q.2 ≤ q.1),
          (if h : q.2 ≤ q.1 then g ⟨q, h⟩ else 0) := by
        refine Finset.sum_bij' (fun (c : TrilIx n) _ => c.1)
          (fun q hq => ⟨q, (Finset.mem_filter.mp hq).2⟩) ?_ ?_ ?_ ?_ ?_
        · intro a _
          exact Finset.mem_filter.mpr ⟨Finset.mem_univ _, a.2⟩
        · intro q _
          exact Finset.mem_univ _
        · intro a _
          rfl
        · intro q _
          rfl
        · intro a _
          show g a = if h : (a.1).2 ≤ (a.1).1 then g ⟨a.1, h⟩ else 0
          rw [dif_pos a.2]
          rfl
    _ = ∑ q : Fin n × Fin n, (if h : q.2 ≤ q.1 then g ⟨q, h⟩ else 0) := by
        refine Finset.sum_filter_of_ne fun q _ hne => ?_
        by_contra h
        exact hne (dif_neg h)
    _ = ∑ p : Fin n, ∑ k : Fin n, if h : k ≤ p then g ⟨(p, k), h⟩ else 0 := by
        rw [Fintype.sum_prod_type]

/-- Row `(i, j)` of the system matrix applied to a vector equals the
`(i, j)` entry of `S^T dS + dS^T S`, where `dS` is the upper-triangular
scatter of the vector.  This identifies the flattened linear system of
`cholesky_sqrt_diff` with the differentiated factor identity. -/
theorem cholDiffA_mulVec (S : Matrix (Fin n) (Fin n) α) (v : TrilIx n → α)
    (r : TrilIx n) :
    (cholDiffA S *ᵥ v) r
      = (Sᵀ * unvecTril v + (unvecTril v)ᵀ * S) r.1.1 r.1.2 := by
  obtain ⟨⟨i, j⟩, hji⟩ := r
  show ∑ c : TrilIx n, cholDiffA S ⟨(i, j), hji⟩ c * v c = _
  rw [Matrix.add_apply, Matrix.mul_apply, Matrix.mul_apply]
  simp only [Matrix.transpose_apply]
  have lhs_eq : ∑ c : TrilIx n, cholDiffA S ⟨(i, j), hji⟩ c * v c
      = (∑ c : TrilIx n, if c.1.1 = i then S c.1.2 j * v c else 0)
        + ∑ c : TrilIx n, if c.1.1 = j then S c.1.2 i * v c else 0 := by
    rw [← Finset.sum_add_distrib]
    refine Finset.sum_congr rfl fun c _ => ?_
    simp only [cholDiffA]
    by_cases h1 : c.1.1 = i <;> by_cases h2 : c.1.1 = j <;>
      simp [h1, h2, add_mul]
  have part1 : ∑ c : TrilIx n, (if c.1.1 = i then S c.1.2 j * v c else 0)
      = ∑ k : Fin n, unvecTril v k i * S k j := by
    rw [sum_trilIx fun c => if c.1.1 = i then S c.1.2 j * v c else 0]
    rw [Finset.sum_comm]
    refine Finset.sum_congr rfl fun k _ => ?_
    have comm : ∀ p : Fin n,
        (if h : k ≤ p then (if p = i then S k j * v ⟨(p, k), h⟩ else 0) else 0)
        = if p = i then (if h : k ≤ p then S k j * v ⟨(p, k), h⟩ else 0) else 0 := by
      intro p
      by_cases hp : p = i
      · subst hp
        simp
      · rw [if_neg hp]
        by_cases hkp : k ≤ p
        · rw [dif_pos hkp, if_neg hp]
        · rw [dif_neg hkp]
    rw [Finset.sum_congr rfl fun p _ => comm p, Finset.sum_ite_eq' Finset.univ i
      (fun p => if h : k ≤ p then S k j * v ⟨(p, k), h⟩ else 0),
      if_pos (Finset.mem_univ i), unvecTril]
    by_cases hki : k ≤ i
    · rw [dif_pos hki, dif_pos hki, mul_comm]
    · rw [dif_neg hki, dif_neg hki, zero_mul]
  have part2 : ∑ c : TrilIx n, (if c.1.1 = j then S c.1.2 i * v c else 0)
      = ∑ k : Fin n, S k i * unvecTril v k j := by
    rw [sum_trilIx fun c => if c.1.1 = j then S c.1.2 i * v c else 0]
    rw [Finset.sum_comm]
    refine Finset.sum_congr rfl fun k _ => ?_
    have comm : ∀ p : Fin n,
        (if h : k ≤ p then (if p = j then S k i * v ⟨(p, k), h⟩ else 0) else 0)
        = if p = j then (if h : k ≤ p then S k i * v ⟨(p, k), h⟩ else 0) else 0 := by
      intro p
      by_cases hp : p = j
      · subst hp
        simp
      · rw [if_neg hp]
        by_cases hkp : k ≤ p
        · rw [dif_pos hkp, if_neg hp]
        · rw [dif_neg hkp]
    rw [Finset.sum_congr rfl fun p _ => comm p, Finset.sum_ite_eq' Finset.univ j
      (fun p => if h : k ≤ p then S k i * v ⟨(p, k), h⟩ else 0),
      if_pos (Finset.mem_univ j), unvecTril]
    by_cases hkj : k ≤ j
    · rw [dif_pos hkj, dif_pos hkj]
    · rw [dif_neg hkj, dif_neg hkj, mul_zero]
  rw [lhs_eq, part1, part2, add_comm]

/-- The system matrix is lower triangular with respect to the column-major
ranking of the lower-triangular pairs, given that `S` is upper triangular. -/
theorem cholDiffA_blockTriangular (S : Matrix (Fin n) (Fin n) α)
    (htri : ∀ i j : Fin n, j < i → S i j = 0) :
    (cholDiffA S).BlockTriangular
      (OrderDual.toDual : TrilIx n → (TrilIx n)ᵒᵈ) := by
  intro r c h
  have hrc : trilRank r < trilRank c := OrderDual.toDual_lt_toDual.mp h
  obtain ⟨⟨i, j⟩, hij⟩ := r
  obtain ⟨⟨p, k⟩, hkp⟩ := c
  have hr : (j : ℕ) * n + (i : ℕ) < (k : ℕ) * n + (p : ℕ) := hrc
  have hij' : (j : ℕ) ≤ (i : ℕ) := hij
  have hkp' : (k : ℕ) ≤ (p : ℕ) := hkp
  show (if p = i then S k j else 0) + (if p = j then S k i else 0) = 0
  have t1 : (if p = i then S k j else 0) = 0 := by
    by_cases hp : p = i
    · rw [if_pos hp]
      by_cases hjk : j < k
      · exact htri k j hjk
      · exfalso
        replace hjk : (k : ℕ) ≤ (j : ℕ) := le_of_not_lt fun hc => hjk (by exact hc)
        have hmul : (k : ℕ) * n ≤ (j : ℕ) * n := Nat.mul_le_mul_right n hjk
        have hpi : (p : ℕ) = (i : ℕ) := by rw [hp]
        omega
    · rw [if_neg hp]
  have t2 : (if p = j then S k i else 0) = 0 := by
    by_cases hp : p = j
    · rw [if_pos hp]
      by_cases hik : i < k
      · exact htri k i hik
      · exfalso
        replace hik : (k : ℕ) ≤ (i : ℕ) := le_of_not_lt fun hc => hik (by exact hc)
        have hkj : (k : ℕ) ≤ (j : ℕ) := by
          have hpj : (p : ℕ) = (j : ℕ) := by rw [hp]
          omega
        have hmul : (k : ℕ) * n ≤ (j : ℕ) * n := Nat.mul_le_mul_right n hkj
        have hpj : (p : ℕ) = (j : ℕ) := by rw [hp]
        omega
    · rw [if_neg hp]
  rw [t1, t2, add_zero]

/-- The determinant of the system matrix is a unit when `S` is upper
triangular with positive diagonal: the matrix is triangular and its diagonal
entries are `S j j` or `2 S j j`. -/
theorem cholDiffA_det_isUnit (S : Matrix (Fin n) (Fin n) α)
    (htri : ∀ i j : Fin n, j < i → S i j = 0) (hdiag : ∀ i, 0 < S i i) :
    IsUnit (cholDiffA S).det := by
  rw [Matrix.det_of_lowerTriangular (cholDiffA S)
    (cholDiffA_blockTriangular S htri)]
  refine isUnit_iff_ne_zero.mpr (ne_of_gt (Finset.prod_pos fun c _ => ?_))
  obtain ⟨⟨i, j⟩, hij⟩ := c
  show 0 < (if i = i then S j j else 0) + (if i = j then S j i else 0)
  rw [if_pos rfl]
  by_cases hij' : i = j
  · rw [if_pos hij', ← hij']
    exact add_pos (hdiag i) (hdiag i)
  · rw [if_neg hij', add_zero]
    exact hdiag j

/-- Solving with the inverse of a matrix with unit determinant recovers any
vector known to satisfy the system. -/
theorem inv_mulVec_eq {m : Type} [Fintype m] [DecidableEq m]
    (A : Matrix m m α) (hdet : IsUnit A.det) (v b : m → α)
    (hAv : A *ᵥ v = b) : A⁻¹ *ᵥ b = v := by
  rw [← hAv, Matrix.mulVec_mulVec, Matrix.nonsing_inv_mul A hdet,
    Matrix.one_mulVec]

/-- C3 (amended).  For every upper-triangular `S` with positive diagonal and
every symmetric `dQ`, `cholesky_sqrt_diff(S, dQ)` returns `dS` that is upper
triangular, whose lower-triangular flattening solves the code system
`A_tril . vec(dL_tril) = vec(dQ_tril)` (entries `A[(i,j),(i,k)] = S[k,j]` and
`A[(i,j),(j,k)] += S[k,i]`, i.e. `L[j,k]` and `L[i,k]` in terms of
`L = S^T`), and which solves the differentiated factor identity
`S^T dS + dS^T S = dQ`. -/
theorem cholesky_sqrt_diff_solves (S dQ : Matrix (Fin n) (Fin n) α)
    (htri : ∀ i j : Fin n, j < i → S i j = 0) (hdiag : ∀ i, 0 < S i i)
    (hsym : dQᵀ = dQ) :
    (∀ i j : Fin n, j < i → cholesky_sqrt_diff S dQ i j = 0)
    ∧ (cholDiffA S *ᵥ (fun c => cholesky_sqrt_diff S dQ c.1.2 c.1.1)
        = trilVec dQ)
    ∧ Sᵀ * cholesky_sqrt_diff S dQ + (cholesky_sqrt_diff S dQ)ᵀ * S = dQ := by
  have hdet := cholDiffA_det_isUnit S htri hdiag
  have hvecEq : (fun c : TrilIx n => cholesky_sqrt_diff S dQ c.1.2 c.1.1)
      = (cholDiffA S)⁻¹ *ᵥ trilVec dQ := by
    funext c
    show (if h : c.1.2 ≤ c.1.1
        then ((cholDiffA S)⁻¹ *ᵥ trilVec dQ) ⟨(c.1.1, c.1.2), h⟩ else 0)
      = ((cholDiffA S)⁻¹ *ᵥ trilVec dQ) c
    rw [dif_pos c.2]
    rfl
  have hAv : cholDiffA S *ᵥ ((cholDiffA S)⁻¹ *ᵥ trilVec dQ) = trilVec dQ := by
    rw [Matrix.mulVec_mulVec, Matrix.mul_nonsing_inv _ hdet,
      Matrix.one_mulVec]
  have htrilEq : ∀ r : TrilIx n,
      (Sᵀ * cholesky_sqrt_diff S dQ + (cholesky_sqrt_diff S dQ)ᵀ * S)
          r.1.1 r.1.2
        = dQ r.1.1 r.1.2 := by
    intro r
    have hb := cholDiffA_mulVec S ((cholDiffA S)⁻¹ *ᵥ trilVec dQ) r
    rw [hAv] at hb
    exact hb.symm
  refine ⟨?_, ?_, ?_⟩
  · intro i j hji
    show (if h : i ≤ j then ((cholDiffA S)⁻¹ *ᵥ trilVec dQ) ⟨(j, i), h⟩ else 0)
        = 0
    rw [dif_neg (not_le.mpr hji)]
  · rw [hvecEq]
    exact hAv
  · have hMsym : (Sᵀ * cholesky_sqrt_diff S dQ
        + (cholesky_sqrt_diff S dQ)ᵀ * S)ᵀ
        = Sᵀ * cholesky_sqrt_diff S dQ + (cholesky_sqrt_diff S dQ)ᵀ * S := by
      rw [Matrix.transpose_add, Matrix.transpose_mul, Matrix.transpose_mul,
        Matrix.transpose_transpose, Matrix.transpose_transpose, add_comm]
    ext i j
    rcases le_or_lt j i with h | h
    · exact htrilEq ⟨(i, j), h⟩
    · have h1 := htrilEq ⟨(j, i), le_of_lt h⟩
      have hM : (Sᵀ * cholesky_sqrt_diff S dQ
          + (cholesky_sqrt_diff S dQ)ᵀ * S) i j
          = (Sᵀ * cholesky_sqrt_diff S dQ
            + (cholesky_sqrt_diff S dQ)ᵀ * S) j i := by
        conv_lhs => rw [← hMsym]
        rw [Matrix.transpose_apply]
      have hQ : dQ j i = dQ i j := by
        conv_rhs => rw [← hsym]
        rw [Matrix.transpose_apply]
      rw [hM, h1, hQ]

/-- Witness for C3 at `n = 1`, `S = (2)`, `dQ = (6)` over the rationals. -/
theorem cholesky_sqrt_diff_solves_witness :
    ((∀ i j : Fin 1, j < i → (!![(2 : ℚ)]) i j = 0)
      ∧ (∀ i : Fin 1, 0 < (!![(2 : ℚ)]) i i)
      ∧ (!![(6 : ℚ)])ᵀ = !![(6 : ℚ)])
    ∧ ((∀ i j : Fin 1, j < i → cholesky_sqrt_diff !![(2 : ℚ)] !![(6 : ℚ)] i j = 0)
      ∧ (cholDiffA !![(2 : ℚ)] *ᵥ
          (fun c => cholesky_sqrt_diff !![(2 : ℚ)] !![(6 : ℚ)] c.1.2 c.1.1)
          = trilVec !![(6 : ℚ)])
      ∧ (!![(2 : ℚ)])ᵀ * cholesky_sqrt_diff !![(2 : ℚ)] !![(6 : ℚ)]
          + (cholesky_sqrt_diff !![(2 : ℚ)] !![(6 : ℚ)])ᵀ * !![(2 : ℚ)]
        = !![(6 : ℚ)]) :=
  ⟨⟨by decide, by norm_num, by ext i j; fin_cases i; fin_cases j; rfl⟩,
    cholesky_sqrt_diff_solves !![(2 : ℚ)] !![(6 : ℚ)] (by decide)
      (by norm_num) (by ext i j; fin_cases i; fin_cases j; rfl)⟩

/-- C3 counterexample.  At `S = [[1,1],[0,1]]` (upper triangular, positive
diagonal) and the symmetric `dQ = [[0,0],[0,1]]`, the flattening of the value
returned by `cholesky_sqrt_diff` does not satisfy the linear system with the
entries as the claim words them (`A[(i,j),(i,k)] = L[k,j]`,
`A[(i,j),(j,k)] += L[k,i]`): the claim transposes the `L` indices.  The code
output is `dS = [[0,0],[0,1/2]]`; the claimed system demands
`L00 dL10 + L10 dL11 = dQ10`, i.e. `dL10 = -1/2`, at row `(1,0)`. -/
theorem cholesky_sqrt_diff_claim_counterexample :
    ¬ (cholDiffAClaim (!![(1 : ℚ), 1; 0, 1]) *ᵥ
        (fun c : TrilIx 2 =>
          cholesky_sqrt_diff (!![(1 : ℚ), 1; 0, 1]) (!![(0 : ℚ), 0; 0, 1])
            c.1.2 c.1.1)
      = trilVec (!![(0 : ℚ), 0; 0, 1])) := by
  intro hEq
  have htri : ∀ i j : Fin 2, j < i → (!![(1 : ℚ), 1; 0, 1]) i j = 0 := by
    decide
  have hdiag : ∀ i : Fin 2, 0 < (!![(1 : ℚ), 1; 0, 1]) i i := by
    intro i
    fin_cases i <;> norm_num
  have hdet := cholDiffA_det_isUnit (!![(1 : ℚ), 1; 0, 1]) htri hdiag
  have hunvec : unvecTril
      (fun c : TrilIx 2 => if c.1.1 = 1 ∧ c.1.2 = 1 then (1 : ℚ) / 2 else 0)
      = !![(0 : ℚ), 0; 0, 1 / 2] := by
    ext a b
    fin_cases a <;> fin_cases b <;> simp [unvecTril]
  have hprod : (!![(1 : ℚ), 1; 0, 1])ᵀ * (!![(0 : ℚ), 0; 0, 1 / 2])
      + (!![(0 : ℚ), 0; 0, 1 / 2])ᵀ * (!![(1 : ℚ), 1; 0, 1])
      = !![(0 : ℚ), 0; 0, 1] := by
    ext a b
    fin_cases a <;> fin_cases b <;>
      norm_num [Matrix.mul_apply, Fin.sum_univ_two, Matrix.transpose_apply,
        Matrix.vecHead, Matrix.vecTail]
  have hAv : cholDiffA (!![(1 : ℚ), 1; 0, 1]) *ᵥ
      (fun c : TrilIx 2 => if c.1.1 = 1 ∧ c.1.2 = 1 then (1 : ℚ) / 2 else 0)
      = trilVec (!![(0 : ℚ), 0; 0, 1]) := by
    funext r
    rw [cholDiffA_mulVec (!![(1 : ℚ), 1; 0, 1])
      (fun c : TrilIx 2 => if c.1.1 = 1 ∧ c.1.2 = 1 then (1 : ℚ) / 2 else 0) r,
      hunvec, hprod]
    rfl
  have hsol : cholesky_sqrt_diff (!![(1 : ℚ), 1; 0, 1]) (!![(0 : ℚ), 0; 0, 1])
      = unvecTril
        (fun c : TrilIx 2 => if c.1.1 = 1 ∧ c.1.2 = 1 then (1 : ℚ) / 2 else 0) := by
    show unvecTril ((cholDiffA (!![(1 : ℚ), 1; 0, 1]))⁻¹ *ᵥ
        trilVec (!![(0 : ℚ), 0; 0, 1])) = _
    rw [inv_mulVec_eq (cholDiffA (!![(1 : ℚ), 1; 0, 1])) hdet
      (fun c : TrilIx 2 => if c.1.1 = 1 ∧ c.1.2 = 1 then (1 : ℚ) / 2 else 0)
      (trilVec (!![(0 : ℚ), 0; 0, 1])) hAv]
  have hvec : (fun c : TrilIx 2 =>
      cholesky_sqrt_diff (!![(1 : ℚ), 1; 0, 1]) (!![(0 : ℚ), 0; 0, 1])
        c.1.2 c.1.1)
      = fun c : TrilIx 2 => if c.1.1 = 1 ∧ c.1.2 = 1 then (1 : ℚ) / 2 else 0 := by
    funext c
    rw [hsol]
    show (if h : c.1.2 ≤ c.1.1
        then (if ((⟨(c.1.1, c.1.2), h⟩ : TrilIx 2)).1.1 = 1
              ∧ ((⟨(c.1.1, c.1.2), h⟩ : TrilIx 2)).1.2 = 1
            then (1 : ℚ) / 2 else 0)
        else 0)
      = if c.1.1 = 1 ∧ c.1.2 = 1 then (1 : ℚ) / 2 else 0
    rw [dif_pos c.2]
  rw [hvec] at hEq
  have h10 := congrFun hEq ⟨((1 : Fin 2), (0 : Fin 2)), by decide⟩
  have h10' : (∑ c : TrilIx 2,
      cholDiffAClaim (!![(1 : ℚ), 1; 0, 1]) ⟨((1 : Fin 2), (0 : Fin 2)), by decide⟩ c
        * (if c.1.1 = 1 ∧ c.1.2 = 1 then (1 : ℚ) / 2 else 0))
      = trilVec (!![(0 : ℚ), 0; 0, 1]) ⟨((1 : Fin 2), (0 : Fin 2)), by decide⟩ := h10
  rw [sum_trilIx (fun c : TrilIx 2 =>
    cholDiffAClaim (!![(1 : ℚ), 1; 0, 1]) ⟨((1 : Fin 2), (0 : Fin 2)), by decide⟩ c
      * (if c.1.1 = 1 ∧ c.1.2 = 1 then (1 : ℚ) / 2 else 0))] at h10'
  simp only [Fin.sum_univ_two] at h10'
  norm_num [cholDiffAClaim, trilVec, Fin.le_def, Fin.ext_iff] at h10'

end CholeskyDiffLemmas

section CholeskyExistence

/-- The likelihood update of kalman.py lines 533-535 decrements the stored
log-likelihood by exactly `0.5 e^T PyI e + sum(log(diag(PyC)))`, with no
additional constant term. -/
theorem likelihoodUpdate_decrement (na : ℕ) (L : ℝ) (e : ℕ → ℝ)
    (PyI PyC : ℕ → ℕ → ℝ) :
    L - likelihoodUpdate na L e PyI PyC
      = 0.5 * (∑ i ∈ Finset.range na, ∑ j ∈ Finset.range na,
          e i * PyI i j * e j)
        + ∑ i ∈ Finset.range na, Real.log (PyC i i) := by
  rw [likelihoodUpdate]
  ring

/-- Quadratic-form identity behind the Schur-complement step: completing the
square in the first coordinate. -/
theorem schur_quadratic (n : ℕ) (A : ℝ) (hA : A ≠ 0) (bb : Fin n → ℝ)
    (C : Matrix (Fin n) (Fin n) ℝ) (x : Fin n → ℝ) :
    (-(∑ i, bb i * x i) / A)
        * (A * (-(∑ i, bb i * x i) / A) + ∑ j, bb j * x j)
      + ∑ i, x i * (bb i * (-(∑ k, bb k * x k) / A) + ∑ j, C i j * x j)
    = ∑ i, x i * (∑ j, (C i j - A⁻¹ * (bb i * bb j)) * x j) := by
  have h1 : A * (-(∑ i, bb i * x i) / A) = -(∑ i, bb i * x i) := by
    field_simp
    ring
  rw [h1, neg_add_cancel, mul_zero, zero_add]
  have hR : ∀ i, ∑ j, (C i j - A⁻¹ * (bb i * bb j)) * x j
      = (∑ j, C i j * x j) - A⁻¹ * bb i * ∑ j, bb j * x j := by
    intro i
    calc
      ∑ j, (C i j - A⁻¹ * (bb i * bb j)) * x j
        = ∑ j, (C i j * x j - A⁻¹ * bb i * (bb j * x j)) :=
          Finset.sum_congr rfl fun j _ => by ring
      _ = (∑ j, C i j * x j) - ∑ j, A⁻¹ * bb i * (bb j * x j) :=
          Finset.sum_sub_distrib
      _ = (∑ j, C i j * x j) - A⁻¹ * bb i * ∑ j, bb j * x j := by
          rw [← Finset.mul_sum]
  symm
  calc
    ∑ i, x i * (∑ j, (C i j - A⁻¹ * (bb i * bb j)) * x j)
      = ∑ i, x i * ((∑ j, C i j * x j) - A⁻¹ * bb i * ∑ j, bb j * x j) :=
        Finset.sum_congr rfl fun i _ => by rw [hR i]
    _ = ∑ i, (x i * (∑ j, C i j * x j)
          - x i * bb i * (A⁻¹ * ∑ j, bb j * x j)) :=
        Finset.sum_congr rfl fun i _ => by ring
    _ = (∑ i, x i * (∑ j, C i j * x j))
          - ∑ i, x i * bb i * (A⁻¹ * ∑ j, bb j * x j) :=
        Finset.sum_sub_distrib
    _ = (∑ i, x i * (∑ j, C i j * x j))
          - (∑ i, x i * bb i) * (A⁻¹ * ∑ j, bb j * x j) := by
        rw [← Finset.sum_mul]
    _ = ∑ i, x i * (bb i * (-(∑ k, bb k * x k) / A) + ∑ j, C i j * x j) := by
        have hfinal : ∀ i, x i * (bb i * (-(∑ k, bb k * x k) / A)
            + ∑ j, C i j * x j)
            = x i * (∑ j, C i j * x j)
              - x i * bb i * ((∑ k, bb k * x k) / A) := fun i => by ring
        rw [Finset.sum_congr rfl fun i _ => hfinal i, Finset.sum_sub_distrib,
          ← Finset.sum_mul]
        have : (∑ i, x i * bb i) * ((∑ k, bb k * x k) / A)
            = (∑ i, x i * bb i) * (A⁻¹ * ∑ j, bb j * x j) := by
          ring
        rw [this]

/-- Every symmetric positive-definite real matrix has an upper-triangular
factor with positive diagonal satisfying `S^T S = Q`: the existence half of
the scipy.linalg.cholesky contract, by induction on the dimension via the
Schur complement. -/
theorem cholesky_factor_exists :
    ∀ (n : ℕ) (Q : Matrix (Fin n) (Fin n) ℝ), Q.PosDef →
      ∃ S : Matrix (Fin n) (Fin n) ℝ,
        (∀ i j : Fin n, j < i → S i j = 0) ∧ (∀ i, 0 < S i i)
          ∧ Sᵀ * S = Q := by
  intro n
  induction n with
  | zero =>
      intro Q _
      refine ⟨0, fun i => i.elim0, fun i => i.elim0, ?_⟩
      ext i j
      exact i.elim0
  | succ n ih =>
      intro Q hQ
      have hsym : ∀ i j, Q j i = Q i j := by
        intro i j
        have h := hQ.1.apply i j
        rwa [star_trivial] at h
      have ha : 0 < Q 0 0 := by
        have hx : (Pi.single (0 : Fin (n + 1)) (1 : ℝ) : Fin (n + 1) → ℝ)
            ≠ 0 := by
          intro h
          have h0 := congrFun h 0
          simp [Pi.single_apply] at h0
        have hp := hQ.2 (Pi.single (0 : Fin (n + 1)) (1 : ℝ)) hx
        have hval : star (Pi.single (0 : Fin (n + 1)) (1 : ℝ))
            ⬝ᵥ (Q *ᵥ Pi.single 0 1) = Q 0 0 := by
          simp [Matrix.dotProduct, Matrix.mulVec, Pi.single_apply,
            Finset.mul_sum, Finset.sum_ite_eq, Finset.sum_ite_eq']
        rwa [hval] at hp
      have ha' : Q 0 0 ≠ 0 := ne_of_gt ha
      have hrow : ∀ i : Fin n, Q i.succ 0 = Q 0 i.succ := fun i =>
        hsym 0 i.succ
      -- the Schur complement of the (0,0) entry
      have hSchurPD : Matrix.PosDef
          (fun i j => Q i.succ j.succ
            - (Q 0 0)⁻¹ * (Q 0 i.succ * Q 0 j.succ)
            : Matrix (Fin n) (Fin n) ℝ) := by
        constructor
        · show _ = _
          ext i j
          rw [Matrix.conjTranspose_apply, star_trivial]
          show Q j.succ i.succ - (Q 0 0)⁻¹ * (Q 0 j.succ * Q 0 i.succ) = _
          rw [hsym i.succ j.succ]
          ring_nf
        · intro x hx
          have hy : (Fin.cons (-(∑ i, Q 0 i.succ * x i) / Q 0 0) x
              : Fin (n + 1) → ℝ) ≠ 0 := by
            intro h
            apply hx
            funext i
            simpa [Fin.cons_succ] using congrFun h i.succ
          have hp := hQ.2 _ hy
          have hexp : star (Fin.cons (-(∑ i, Q 0 i.succ * x i) / Q 0 0) x
                : Fin (n + 1) → ℝ)
              ⬝ᵥ (Q *ᵥ Fin.cons (-(∑ i, Q 0 i.succ * x i) / Q 0 0) x)
              = (-(∑ i, Q 0 i.succ * x i) / Q 0 0)
                  * (Q 0 0 * (-(∑ i, Q 0 i.succ * x i) / Q 0 0)
                    + ∑ j, Q 0 j.succ * x j)
                + ∑ i, x i * (Q i.succ 0
                    * (-(∑ k, Q 0 k.succ * x k) / Q 0 0)
                  + ∑ j, Q i.succ j.succ * x j) := by
            simp only [Matrix.dotProduct, Matrix.mulVec, Pi.star_apply,
              star_trivial, Fin.sum_univ_succ, Fin.cons_zero, Fin.cons_succ]
          have hexp2 : star (Fin.cons (-(∑ i, Q 0 i.succ * x i) / Q 0 0) x
                : Fin (n + 1) → ℝ)
              ⬝ᵥ (Q *ᵥ Fin.cons (-(∑ i, Q 0 i.succ * x i) / Q 0 0) x)
              = (-(∑ i, Q 0 i.succ * x i) / Q 0 0)
                  * (Q 0 0 * (-(∑ i, Q 0 i.succ * x i) / Q 0 0)
                    + ∑ j, Q 0 j.succ * x j)
                + ∑ i, x i * (Q 0 i.succ
                    * (-(∑ k, Q 0 k.succ * x k) / Q 0 0)
                  + ∑ j, Q i.succ j.succ * x j) := by
            rw [hexp]
            congr 1
            exact Finset.sum_congr rfl fun i _ => by rw [hrow i]
          have hRHS : star x ⬝ᵥ ((fun i j => Q i.succ j.succ
                - (Q 0 0)⁻¹ * (Q 0 i.succ * Q 0 j.succ)
                : Matrix (Fin n) (Fin n) ℝ) *ᵥ x)
              = ∑ i, x i * (∑ j, (Q i.succ j.succ
                  - (Q 0 0)⁻¹ * (Q 0 i.succ * Q 0 j.succ)) * x j) := by
            simp only [Matrix.dotProduct, Matrix.mulVec, Pi.star_apply,
              star_trivial]
          rw [hRHS,
            ← schur_quadratic n (Q 0 0) ha' (fun i => Q 0 i.succ)
              (fun i j => Q i.succ j.succ) x,
            ← hexp2]
          exact hp
      obtain ⟨S', htri', hdiag', heq'⟩ := ih
        (fun i j => Q i.succ j.succ - (Q 0 0)⁻¹ * (Q 0 i.succ * Q 0 j.succ))
        hSchurPD
      have hSentry : ∀ i' j', (S'ᵀ * S') i' j'
          = Q i'.succ j'.succ
            - (Q 0 0)⁻¹ * (Q 0 i'.succ * Q 0 j'.succ) := by
        intro i' j'
        have := congrFun (congrFun heq' i') j'
        exact this
      have hsa : 0 < Real.sqrt (Q 0 0) := Real.sqrt_pos.mpr ha
      have hsa' : Real.sqrt (Q 0 0) ≠ 0 := ne_of_gt hsa
      have hsq : Real.sqrt (Q 0 0) * Real.sqrt (Q 0 0) = Q 0 0 :=
        Real.mul_self_sqrt ha.le
      refine ⟨Fin.cons
        (Fin.cons (Real.sqrt (Q 0 0))
          fun j => Q 0 j.succ / Real.sqrt (Q 0 0))
        (fun k' => Fin.cons 0 (S' k')), ?_, ?_, ?_⟩
      · intro i j hji
        rcases Fin.eq_zero_or_eq_succ i with hi | ⟨i', rfl⟩
        · subst hi
          exact absurd hji (Fin.not_lt_zero j)
        · rcases Fin.eq_zero_or_eq_succ j with hj | ⟨j', rfl⟩
          · subst hj
            simp [Fin.cons_succ, Fin.cons_zero]
          · have hj'i' : j' < i' := by
              have := hji
              rw [Fin.succ_lt_succ_iff] at this
              exact this
            simpa [Fin.cons_succ] using htri' i' j' hj'i'
      · intro i
        rcases Fin.eq_zero_or_eq_succ i with hi | ⟨i', rfl⟩
        · subst hi
          simpa [Fin.cons_zero] using hsa
        · simpa [Fin.cons_succ] using hdiag' i'
      · ext i j
        rw [Matrix.mul_apply]
        simp only [Matrix.transpose_apply]
        rw [Fin.sum_univ_succ]
        rcases Fin.eq_zero_or_eq_succ i with hi | ⟨i', rfl⟩ <;>
          rcases Fin.eq_zero_or_eq_succ j with hj | ⟨j', rfl⟩
        · subst hi
          subst hj
          simp only [Fin.cons_zero, Fin.cons_succ]
          rw [hsq]
          simp
        · subst hi
          simp only [Fin.cons_zero, Fin.cons_succ]
          rw [Finset.sum_eq_zero fun k _ => zero_mul (S' k j'), add_zero,
            mul_comm, div_mul_cancel₀ _ hsa']
        · subst hj
          simp only [Fin.cons_zero, Fin.cons_succ]
          rw [Finset.sum_eq_zero fun k _ => mul_zero (S' k i'), add_zero,
            div_mul_cancel₀ _ hsa']
          exact (hrow i').symm
        · simp only [Fin.cons_zero, Fin.cons_succ]
          have hz : ∑ k' : Fin n, S' k' i' * S' k' j' = (S'ᵀ * S') i' j' := by
            rw [Matrix.mul_apply]
            exact Finset.sum_congr rfl fun k' _ => by
              rw [Matrix.transpose_apply]
          rw [hz, hSentry i' j']
          rw [div_mul_div_comm, hsq]
          field_simp

/-- C2.  Square-root identity: for every symmetric positive-definite `Q`,
the square-root operation of both backends returns `S` with `S^T S = Q`
(note the transpose direction).  The Cholesky variant returns the
upper-triangular Cholesky factor of `Q` with positive diagonal; the SVD
variant returns `(U diag(sqrt(s)))^T` from the singular value decomposition
`Q = U diag(s) U^T` (for a symmetric positive-semidefinite matrix the right
factor of the SVD equals the left one). -/
theorem sqrt_identity {n : ℕ} (Q : Matrix (Fin n) (Fin n) ℝ)
    (hQ : Q.PosDef) :
    ((∀ i j : Fin n, j < i → cholesky_upper Q i j = 0)
      ∧ (∀ i, 0 < cholesky_upper Q i i)
      ∧ (cholesky_upper Q)ᵀ * cholesky_upper Q = Q)
    ∧ (∀ (U : Matrix (Fin n) (Fin n) ℝ) (s : Fin n → ℝ),
        (∀ i, 0 ≤ s i) → Q = U * Matrix.diagonal s * Uᵀ →
        (svd_sqrt U s)ᵀ * svd_sqrt U s = Q) := by
  constructor
  · have hex := cholesky_factor_exists n Q hQ
    simp only [cholesky_upper, dif_pos hex]
    exact hex.choose_spec
  · intro U s hs hdecomp
    have hDD : (Matrix.diagonal fun i => Real.sqrt (s i))
        * (Matrix.diagonal fun i => Real.sqrt (s i)) = Matrix.diagonal s := by
      rw [Matrix.diagonal_mul_diagonal]
      have hss : (fun i => Real.sqrt (s i) * Real.sqrt (s i)) = s :=
        funext fun i => Real.mul_self_sqrt (hs i)
      rw [hss]
    calc
      (svd_sqrt U s)ᵀ * svd_sqrt U s
        = (U * Matrix.diagonal fun i => Real.sqrt (s i))
            * (U * Matrix.diagonal fun i => Real.sqrt (s i))ᵀ := by
          rw [svd_sqrt, Matrix.transpose_transpose]
      _ = U * ((Matrix.diagonal fun i => Real.sqrt (s i))
            * (Matrix.diagonal fun i => Real.sqrt (s i))ᵀ) * Uᵀ := by
          rw [Matrix.transpose_mul]
          simp only [Matrix.mul_assoc]
      _ = U * Matrix.diagonal s * Uᵀ := by
          rw [Matrix.diagonal_transpose, hDD]
      _ = Q := hdecomp.symm

/-- Witness for C2 at the 1-by-1 identity matrix. -/
theorem sqrt_identity_witness :
    Matrix.PosDef (1 : Matrix (Fin 1) (Fin 1) ℝ)
    ∧ (((∀ i j : Fin 1, j < i →
          cholesky_upper (1 : Matrix (Fin 1) (Fin 1) ℝ) i j = 0)
        ∧ (∀ i, 0 < cholesky_upper (1 : Matrix (Fin 1) (Fin 1) ℝ) i i)
        ∧ (cholesky_upper (1 : Matrix (Fin 1) (Fin 1) ℝ))ᵀ
            * cholesky_upper (1 : Matrix (Fin 1) (Fin 1) ℝ) = 1)
      ∧ (∀ (U : Matrix (Fin 1) (Fin 1) ℝ) (s : Fin 1 → ℝ),
          (∀ i, 0 ≤ s i) →
          (1 : Matrix (Fin 1) (Fin 1) ℝ) = U * Matrix.diagonal s * Uᵀ →
          (svd_sqrt U s)ᵀ * svd_sqrt U s = 1)) :=
  ⟨Matrix.PosDef.one, sqrt_identity (1 : Matrix (Fin 1) (Fin 1) ℝ)
    Matrix.PosDef.one⟩

end CholeskyExistence

end QWFilter
